import Mathlib

/-!
# Verification of the railroad-diagram layout engine

A shallow embedding of the geometry (layout) computations of the railroad
diagram library (`src/lib.rs`) and of its markup builder
(`src/notactuallysvg.rs`), together with theorems settling the specified
properties of those computations.

Machine integers (`i64`) are modelled as `Int`; none of the verified
computations relies on wrap-around behaviour, all values involved are tiny.
Text-width measurement (`text_width`, an external collaborator built on the
`unicode_width` crate) is modelled as an opaque natural-number parameter
carried by the text-bearing leaves.
-/

namespace Railroad

/-- `ARC_RADIUS` (lib.rs): the scale used for all curved connectors. -/
def ARC_RADIUS : Int := 12

/-- The geometry a `Node` reports: `entry_height`, `height` and `width`
(lib.rs, trait `Node`). -/
structure Geo where
  eh : Int
  h : Int
  w : Int
deriving DecidableEq, Repr

/-- `height_below_entry` of a geometry triple (lib.rs, trait `Node`,
default method: `self.height() - self.entry_height()`). -/
def Geo.hbe (g : Geo) : Int := g.h - g.eh

/-- The tree of diagram primitives.  Each constructor is one `Node`
implementation of lib.rs.  `terminal`/`nonTerminal`/`comment` carry the
`text_width` of their label as a parameter (external text measurement);
`debug` carries the caller-supplied `entry_height`/`height`/`width`.
The `spacing`, `left_padding`, `right_padding` and `padding` fields of the
combinators are private fields fixed by `Default` at construction (no public
setter exists), so they appear as the literal constants from lib.rs. -/
inductive NodeTree where
  | end_ : NodeTree
  | simpleStart : NodeTree
  | simpleEnd : NodeTree
  | start : NodeTree
  | terminal (tw : Nat) : NodeTree
  | nonTerminal (tw : Nat) : NodeTree
  | comment (tw : Nat) : NodeTree
  | empty : NodeTree
  | debug (entry_height height width : Int) : NodeTree
  | link (inner : NodeTree) : NodeTree
  | optional (inner : NodeTree) : NodeTree
  | sequence (children : List NodeTree) : NodeTree
  | choice (children : List NodeTree) : NodeTree
  | stack (children : List NodeTree) : NodeTree
  | repeatNode (inner rep : NodeTree) : NodeTree
  | labeledBox (inner label : NodeTree) : NodeTree
  | vGrid (children : List NodeTree) : NodeTree
  | hGrid (children : List NodeTree) : NodeTree
  | diagram (root : NodeTree) : NodeTree
deriving Repr

/-- `Iterator::max().unwrap_or_default()` over `i64` values (lib.rs,
`NodeCollection` helpers): maximum of a list, `0` for the empty list. -/
def maxD : List Int → Int
  | [] => 0
  | x :: xs => xs.foldl max x

/-- `NodeCollection::max_entry_height` (lib.rs). -/
def max_entry_height (gs : List Geo) : Int := maxD (gs.map Geo.eh)

/-- `NodeCollection::max_height` (lib.rs). -/
def max_height (gs : List Geo) : Int := maxD (gs.map Geo.h)

/-- `NodeCollection::max_height_below_entry` (lib.rs). -/
def max_height_below_entry (gs : List Geo) : Int := maxD (gs.map Geo.hbe)

/-- `NodeCollection::max_width` (lib.rs). -/
def max_width (gs : List Geo) : Int := maxD (gs.map Geo.w)

/-- `NodeCollection::total_width` (lib.rs). -/
def total_width (gs : List Geo) : Int := (gs.map Geo.w).sum

/-- `NodeCollection::total_height` (lib.rs). -/
def total_height (gs : List Geo) : Int := (gs.map Geo.h).sum

/-- Geometry of `Optional` (lib.rs, `impl Node for Optional`):
`entry_height = ARC_RADIUS + max(ARC_RADIUS, inner.entry_height())`,
`height = entry_height + inner.height_below_entry()`,
`width = ARC_RADIUS*2 + inner.width() + ARC_RADIUS*2`. -/
def optionalGeom (g : Geo) : Geo :=
  let e := ARC_RADIUS + max ARC_RADIUS g.eh
  ⟨e, e + g.hbe, ARC_RADIUS * 2 + g.w + ARC_RADIUS * 2⟩

/-- Geometry of `Sequence` (lib.rs, `impl Node for Sequence`); its `spacing`
is fixed to `10` by `Default`. -/
def seqGeom (gs : List Geo) : Geo :=
  ⟨max_entry_height gs,
   max_entry_height gs + max_height_below_entry gs,
   if gs.length > 1 then total_width gs + ((gs.length : Int) - 1) * 10
   else total_width gs⟩

/-- `Choice::padded_height` (lib.rs): `max(ARC_RADIUS, child.entry_height())
+ child.height_below_entry() + spacing` with `spacing = 10`. -/
def choicePaddedHeight (g : Geo) : Int := max ARC_RADIUS g.eh + g.hbe + 10

/-- `Choice::inner_padding` (lib.rs): `ARC_RADIUS * 2` when there is more
than one child, else `0`. -/
def choiceInnerPadding (n : Nat) : Int := if n > 1 then ARC_RADIUS * 2 else 0

/-- Geometry of `Choice` (lib.rs, `impl Node for Choice`); `spacing = 10`. -/
def choiceGeom (gs : List Geo) : Geo :=
  let eh := ((gs.head?).map Geo.eh).getD 0
  let h : Int :=
    if gs.isEmpty then 0
    else if gs.length == 1 then total_height gs
    else
      eh + max ARC_RADIUS (10 + ((gs.headD ⟨0, 0, 0⟩).hbe))
        + ((gs.drop 1).map choicePaddedHeight).sum - 10
  let w : Int :=
    if gs.length > 1 then
      choiceInnerPadding gs.length + max_width gs + choiceInnerPadding gs.length
    else max_width gs
  ⟨eh, h, w⟩

/-- `Stack::padded_height` (lib.rs): `child.entry_height() +
max(child.height_below_entry() + spacing, ARC_RADIUS*2) + ARC_RADIUS +
max(0, ARC_RADIUS - next_child.entry_height())`; `Stack`'s `spacing` is
fixed to `ARC_RADIUS` by `Default`. -/
def stackPaddedHeight (g ng : Geo) : Int :=
  g.eh + max (g.hbe + ARC_RADIUS) (ARC_RADIUS * 2) + ARC_RADIUS
    + max 0 (ARC_RADIUS - ng.eh)

/-- The sum of `Stack::padded_height` over adjacent pairs of children
(lib.rs, `impl Node for Stack`, `height`: the children zipped with
themselves skipping one). -/
def stackPairSum : List Geo → Int
  | g :: ng :: rest => stackPaddedHeight g ng + stackPairSum (ng :: rest)
  | _ => 0

/-- `Stack::left_padding` (lib.rs): `max(left_padding, ARC_RADIUS)` when
there is more than one child, else `0`; the private field is `10`. -/
def stackLeftPadding (n : Nat) : Int := if n > 1 then max 10 ARC_RADIUS else 0

/-- `Stack::right_padding` (lib.rs): `max(right_padding, ARC_RADIUS*2)` when
there is more than one child, else `0`; the private field is `10`. -/
def stackRightPadding (n : Nat) : Int :=
  if n > 1 then max 10 (ARC_RADIUS * 2) else 0

/-- Geometry of `Stack` (lib.rs, `impl Node for Stack`).  The width check
iterates over all children but the last (`rev().skip(1).rev()`) and adds
`ARC_RADIUS` when any of them is at least as wide as the last child. -/
def stackGeom (gs : List Geo) : Geo :=
  let eh := ((gs.head?).map Geo.eh).getD 0
  let h := stackPairSum gs + (((gs.getLast?).map Geo.h).getD 0)
  let l := stackLeftPadding gs.length + max_width gs + stackRightPadding gs.length
  let w :=
    if gs.dropLast.any (fun g => (((gs.getLast?).map Geo.w).getD 0) ≤ g.w)
    then l + ARC_RADIUS else l
  ⟨eh, h, w⟩

/-- `Repeat::height_between_entries` (lib.rs): `max(ARC_RADIUS*2,
inner.height_below_entry() + spacing + repeat.entry_height())` with
`spacing = 10`. -/
def repeatHeightBetweenEntries (gi gr : Geo) : Int :=
  max (ARC_RADIUS * 2) (gi.hbe + 10 + gr.eh)

/-- Geometry of `Repeat` (lib.rs, `impl Node for Repeat`). -/
def repeatGeom (gi gr : Geo) : Geo :=
  ⟨gi.eh,
   gi.eh + repeatHeightBetweenEntries gi gr + gr.hbe,
   ARC_RADIUS + max gr.w gi.w + ARC_RADIUS⟩

/-- Geometry of `LabeledBox` (lib.rs, `impl Node for LabeledBox`): the
effective `spacing()` collapses to `0` when the label has no height, the
effective `padding()` collapses to `0` when label and inner are both
zero-sized; the private fields are `8`. -/
def labeledBoxGeom (gi gl : Geo) : Geo :=
  let sp : Int := if gl.h > 0 then 8 else 0
  let pad : Int := if gl.h + gi.h + gl.w + gi.w > 0 then 8 else 0
  ⟨pad + gl.h + sp + gi.eh,
   pad + gl.h + sp + gi.h + pad,
   pad + max gi.w gl.w + pad⟩

/-- Geometry of `VerticalGrid` (lib.rs): `entry_height` is `0`, height is
the total child height plus `spacing` (fixed to `ARC_RADIUS`) between
children, width the maximum child width. -/
def vGridGeom (gs : List Geo) : Geo :=
  ⟨0,
   total_height gs + (max 1 (gs.length : Int) - 1) * ARC_RADIUS,
   max_width gs⟩

/-- Geometry of `HorizontalGrid` (lib.rs): `entry_height` is `0`, width is
the total child width plus `spacing` (fixed to `ARC_RADIUS`) between
children, height the maximum child height. -/
def hGridGeom (gs : List Geo) : Geo :=
  ⟨0,
   max_height gs,
   total_width gs + (max 1 (gs.length : Int) - 1) * ARC_RADIUS⟩

/-- Geometry of `Diagram` (lib.rs, `impl Node for Diagram`): fixed paddings
of `10` on all four sides, `entry_height` is `0`. -/
def diagramGeom (g : Geo) : Geo := ⟨0, 10 + g.h + 10, 10 + g.w + 10⟩

mutual

/-- The geometry every node reports, by the `Node`-impl of each type
(lib.rs).  `link` is the pass-through `impl Node for Link`; the leaves are
the literal constants of their impls (`Terminal`/`NonTerminal`:
`entry_height 11`, `height = entry_height*2`, `width = text_width*8 + 20`;
`Comment`: `10/20/text_width*7 + 10`). -/
def geom : NodeTree → Geo
  | .end_ => ⟨10, 20, 20⟩
  | .simpleStart => ⟨5, 10, 15⟩
  | .simpleEnd => ⟨5, 10, 15⟩
  | .start => ⟨10, 20, 20⟩
  | .terminal tw => ⟨11, 22, (tw : Int) * 8 + 20⟩
  | .nonTerminal tw => ⟨11, 22, (tw : Int) * 8 + 20⟩
  | .comment tw => ⟨10, 20, (tw : Int) * 7 + 10⟩
  | .empty => ⟨0, 0, 0⟩
  | .debug e h w => ⟨e, h, w⟩
  | .link inner => geom inner
  | .optional inner => optionalGeom (geom inner)
  | .sequence cs => seqGeom (geomList cs)
  | .choice cs => choiceGeom (geomList cs)
  | .stack cs => stackGeom (geomList cs)
  | .repeatNode i r => repeatGeom (geom i) (geom r)
  | .labeledBox i l => labeledBoxGeom (geom i) (geom l)
  | .vGrid cs => vGridGeom (geomList cs)
  | .hGrid cs => hGridGeom (geomList cs)
  | .diagram root => diagramGeom (geom root)

/-- `geom` mapped over a child list. -/
def geomList : List NodeTree → List Geo
  | [] => []
  | c :: cs => geom c :: geomList cs

end

/-- `Node::entry_height` of a tree. -/
def entry_height (t : NodeTree) : Int := (geom t).eh

/-- `Node::height` of a tree. -/
def height (t : NodeTree) : Int := (geom t).h

/-- `Node::width` of a tree. -/
def width (t : NodeTree) : Int := (geom t).w

/-- `Node::height_below_entry` of a tree (default trait method). -/
def height_below_entry (t : NodeTree) : Int := height t - entry_height t

theorem geomList_eq_map (cs : List NodeTree) : geomList cs = cs.map geom := by
  induction cs with
  | nil => rfl
  | cons c cs ih => simp [geomList, ih]

/-- `Debug::new` (lib.rs): `assert!(entry_height < height)` and then store
the three caller-supplied values.  The panicking assertion is modelled as
returning `none`. -/
def Debug.new (entry_height height width : Int) : Option NodeTree :=
  if entry_height < height then some (.debug entry_height height width)
  else none

mutual

/-- Every `Debug` leaf of the tree was produced by a successful run of
`Debug::new`, i.e. satisfies the assertion `entry_height < height`.  All
other constructions are unconditional in lib.rs. -/
def constructedOk : NodeTree → Bool
  | .debug e h _ => decide (e < h)
  | .link i => constructedOk i
  | .optional i => constructedOk i
  | .sequence cs => constructedOkList cs
  | .choice cs => constructedOkList cs
  | .stack cs => constructedOkList cs
  | .repeatNode i r => constructedOk i && constructedOk r
  | .labeledBox i l => constructedOk i && constructedOk l
  | .vGrid cs => constructedOkList cs
  | .hGrid cs => constructedOkList cs
  | .diagram r => constructedOk r
  | _ => true

def constructedOkList : List NodeTree → Bool
  | [] => true
  | c :: cs => constructedOk c && constructedOkList cs

end

mutual

/-- Every `Debug` leaf satisfies the `Debug::new` assertion
`entry_height < height` and additionally has a non-negative supplied
entry height. -/
def wfDebug : NodeTree → Bool
  | .debug e h _ => decide (0 ≤ e) && decide (e < h)
  | .link i => wfDebug i
  | .optional i => wfDebug i
  | .sequence cs => wfDebugList cs
  | .choice cs => wfDebugList cs
  | .stack cs => wfDebugList cs
  | .repeatNode i r => wfDebug i && wfDebug r
  | .labeledBox i l => wfDebug i && wfDebug l
  | .vGrid cs => wfDebugList cs
  | .hGrid cs => wfDebugList cs
  | .diagram r => wfDebug r
  | _ => true

def wfDebugList : List NodeTree → Bool
  | [] => true
  | c :: cs => wfDebug c && wfDebugList cs

end

/-- The entry-height invariant on a geometry triple:
`0 ≤ entry_height ≤ height`. -/
def GOk (g : Geo) : Prop := 0 ≤ g.eh ∧ g.eh ≤ g.h

theorem le_foldl_max (a : Int) (xs : List Int) : a ≤ xs.foldl max a := by
  induction xs generalizing a with
  | nil => exact le_refl a
  | cons x xs ih => exact le_trans (le_max_left a x) (ih (max a x))

theorem maxD_nonneg {xs : List Int} (h : ∀ x ∈ xs, 0 ≤ x) : 0 ≤ maxD xs := by
  cases xs with
  | nil => exact le_refl 0
  | cons x xs =>
      exact le_trans (h x (List.mem_cons_self x xs)) (le_foldl_max x xs)

theorem GOk_eh_nonneg {g : Geo} (h : GOk g) : 0 ≤ g.eh := h.1

theorem GOk_hbe_nonneg {g : Geo} (h : GOk g) : 0 ≤ g.hbe := by
  have := h.2; simp [Geo.hbe]; omega

theorem GOk_h_nonneg {g : Geo} (h : GOk g) : 0 ≤ g.h := le_trans h.1 h.2

theorem max_entry_height_nonneg {gs : List Geo} (h : ∀ g ∈ gs, GOk g) :
    0 ≤ max_entry_height gs := by
  refine maxD_nonneg ?_
  intro x hx
  rcases List.mem_map.1 hx with ⟨g, hg, rfl⟩
  exact (h g hg).1

theorem max_height_below_entry_nonneg {gs : List Geo} (h : ∀ g ∈ gs, GOk g) :
    0 ≤ max_height_below_entry gs := by
  refine maxD_nonneg ?_
  intro x hx
  rcases List.mem_map.1 hx with ⟨g, hg, rfl⟩
  exact GOk_hbe_nonneg (h g hg)

theorem max_height_nonneg {gs : List Geo} (h : ∀ g ∈ gs, GOk g) :
    0 ≤ max_height gs := by
  refine maxD_nonneg ?_
  intro x hx
  rcases List.mem_map.1 hx with ⟨g, hg, rfl⟩
  exact GOk_h_nonneg (h g hg)

theorem total_height_nonneg {gs : List Geo} (h : ∀ g ∈ gs, GOk g) :
    0 ≤ total_height gs := by
  refine List.sum_nonneg ?_
  intro x hx
  rcases List.mem_map.1 hx with ⟨g, hg, rfl⟩
  exact GOk_h_nonneg (h g hg)

theorem seqGeom_ok {gs : List Geo} (h : ∀ g ∈ gs, GOk g) :
    GOk (seqGeom gs) := by
  have h1 := max_entry_height_nonneg h
  have h2 := max_height_below_entry_nonneg h
  exact ⟨h1, by simp [seqGeom]; omega⟩

theorem optionalGeom_ok {g : Geo} (h : GOk g) : GOk (optionalGeom g) := by
  have h1 := GOk_hbe_nonneg h
  have h2 : ARC_RADIUS ≤ max ARC_RADIUS g.eh := le_max_left _ _
  simp only [optionalGeom, GOk, ARC_RADIUS] at *
  constructor <;> simp only [Geo.hbe] at * <;> omega

theorem choicePaddedHeight_ge {g : Geo} (h : GOk g) :
    22 ≤ choicePaddedHeight g := by
  have h1 := GOk_hbe_nonneg h
  have h2 : ARC_RADIUS ≤ max ARC_RADIUS g.eh := le_max_left _ _
  simp only [choicePaddedHeight, ARC_RADIUS] at *
  omega

theorem choicePaddedHeight_sum_nonneg {gs : List Geo}
    (h : ∀ g ∈ gs, GOk g) : 0 ≤ (gs.map choicePaddedHeight).sum := by
  refine List.sum_nonneg ?_
  intro x hx
  rcases List.mem_map.1 hx with ⟨g, hg, rfl⟩
  exact le_trans (by omega) (choicePaddedHeight_ge (h g hg))

theorem choiceGeom_nil : choiceGeom [] = ⟨0, 0, 0⟩ := rfl

theorem choiceGeom_single (g : Geo) : choiceGeom [g] = ⟨g.eh, g.h, g.w⟩ := by
  simp [choiceGeom, total_height, max_width, maxD]

theorem choiceGeom_cons_cons (g0 g1 : Geo) (rest : List Geo) :
    choiceGeom (g0 :: g1 :: rest) =
      ⟨g0.eh,
       g0.eh + max ARC_RADIUS (10 + g0.hbe)
         + ((g1 :: rest).map choicePaddedHeight).sum - 10,
       ARC_RADIUS * 2 + max_width (g0 :: g1 :: rest) + ARC_RADIUS * 2⟩ := by
  simp [choiceGeom, choiceInnerPadding]

theorem choiceGeom_ok {gs : List Geo} (h : ∀ g ∈ gs, GOk g) :
    GOk (choiceGeom gs) := by
  match gs with
  | [] => exact ⟨le_refl 0, le_refl 0⟩
  | [g] =>
      have hg := h g (List.mem_cons_self g [])
      rw [choiceGeom_single]
      exact ⟨hg.1, hg.2⟩
  | g0 :: g1 :: rest =>
      have h0 := h g0 (by simp)
      have h1 : 22 ≤ choicePaddedHeight g1 :=
        choicePaddedHeight_ge (h g1 (by simp))
      have h2 : 0 ≤ (rest.map choicePaddedHeight).sum :=
        choicePaddedHeight_sum_nonneg (fun g hg => h g (by simp [hg]))
      have h3 : ARC_RADIUS ≤ max ARC_RADIUS (10 + g0.hbe) := le_max_left _ _
      have h4 := GOk_hbe_nonneg h0
      rw [choiceGeom_cons_cons]
      refine ⟨h0.1, ?_⟩
      simp only [List.map_cons, List.sum_cons, ARC_RADIUS] at *
      linarith

theorem stackPaddedHeight_ge {g : Geo} (ng : Geo) (h : GOk g) :
    g.eh + 36 ≤ stackPaddedHeight g ng := by
  have h1 := GOk_hbe_nonneg h
  have h2 : ARC_RADIUS * 2 ≤ max (g.hbe + ARC_RADIUS) (ARC_RADIUS * 2) :=
    le_max_right _ _
  have h3 : (0 : Int) ≤ max 0 (ARC_RADIUS - ng.eh) := le_max_left _ _
  simp only [stackPaddedHeight, ARC_RADIUS] at *
  omega

theorem stackPairSum_nonneg {gs : List Geo} (h : ∀ g ∈ gs, GOk g) :
    0 ≤ stackPairSum gs := by
  match gs with
  | [] => exact le_refl 0
  | [g] => exact le_refl 0
  | g :: ng :: rest =>
      have h0 := h g (by simp)
      have h1 : 0 ≤ stackPairSum (ng :: rest) :=
        stackPairSum_nonneg (fun g hg => h g (by simp at hg; simp [hg]))
      have h2 := stackPaddedHeight_ge ng h0
      have h3 := GOk_eh_nonneg h0
      simp only [stackPairSum]
      omega

theorem lastH_nonneg {gs : List Geo} (h : ∀ g ∈ gs, GOk g) :
    0 ≤ ((gs.getLast?).map Geo.h).getD 0 := by
  match gs with
  | [] => exact le_refl 0
  | [g] => simpa using GOk_h_nonneg (h g (by simp))
  | g :: g' :: rest =>
      have h1 : 0 ≤ (((g' :: rest).getLast?).map Geo.h).getD 0 :=
        lastH_nonneg (fun g hg => h g (by simp at hg; simp [hg]))
      simpa [List.getLast?_cons_cons] using h1

theorem stackGeom_single (g : Geo) : stackGeom [g] = ⟨g.eh, g.h, g.w⟩ := by
  simp [stackGeom, stackPairSum, stackLeftPadding, stackRightPadding,
    max_width, maxD]

theorem stackGeom_eh (gs : List Geo) :
    (stackGeom gs).eh = ((gs.head?).map Geo.eh).getD 0 := rfl

theorem stackGeom_h (gs : List Geo) :
    (stackGeom gs).h = stackPairSum gs + (((gs.getLast?).map Geo.h).getD 0) :=
  rfl

theorem stackGeom_ok {gs : List Geo} (h : ∀ g ∈ gs, GOk g) :
    GOk (stackGeom gs) := by
  match gs with
  | [] => exact ⟨le_refl 0, le_refl 0⟩
  | [g] =>
      have hg := h g (by simp)
      rw [stackGeom_single]
      exact ⟨hg.1, hg.2⟩
  | g0 :: g1 :: rest =>
      have h0 := h g0 (by simp)
      have h1 : 0 ≤ stackPairSum (g1 :: rest) :=
        stackPairSum_nonneg (fun g hg => h g (by simp at hg; simp [hg]))
      have h2 := stackPaddedHeight_ge g1 h0
      have h3 : 0 ≤ (((g1 :: rest).getLast?).map Geo.h).getD 0 :=
        lastH_nonneg (fun g hg => h g (by simp at hg; simp [hg]))
      refine ⟨?_, ?_⟩
      · simpa [stackGeom_eh] using h0.1
      · rw [stackGeom_eh, stackGeom_h]
        have h4 : stackPairSum (g0 :: g1 :: rest) =
            stackPaddedHeight g0 g1 + stackPairSum (g1 :: rest) := rfl
        have h5 : (g0 :: g1 :: rest).getLast? = (g1 :: rest).getLast? :=
          List.getLast?_cons_cons
        rw [h4, h5]
        have h6 : (((g0 :: g1 :: rest).head?).map Geo.eh).getD 0 = g0.eh := rfl
        rw [h6]
        linarith

theorem repeatGeom_ok {gi gr : Geo} (h1 : GOk gi) (h2 : GOk gr) :
    GOk (repeatGeom gi gr) := by
  have h3 := GOk_hbe_nonneg h2
  have h4 : ARC_RADIUS * 2 ≤ repeatHeightBetweenEntries gi gr := le_max_left _ _
  refine ⟨h1.1, ?_⟩
  simp only [repeatGeom, ARC_RADIUS] at *
  omega

theorem labeledBoxGeom_ok {gi gl : Geo} (h1 : GOk gi) (h2 : GOk gl) :
    GOk (labeledBoxGeom gi gl) := by
  have h3 := GOk_h_nonneg h2
  have h4 := GOk_eh_nonneg h1
  have h5 := h1.2
  simp only [labeledBoxGeom, GOk]
  constructor <;> split <;> split <;> omega

theorem vGridGeom_ok {gs : List Geo} (h : ∀ g ∈ gs, GOk g) :
    GOk (vGridGeom gs) := by
  have h1 := total_height_nonneg h
  have h2 : (1 : Int) ≤ max 1 (gs.length : Int) := le_max_left _ _
  refine ⟨le_refl 0, ?_⟩
  simp only [vGridGeom, ARC_RADIUS] at *
  nlinarith

theorem hGridGeom_ok {gs : List Geo} (h : ∀ g ∈ gs, GOk g) :
    GOk (hGridGeom gs) := ⟨le_refl 0, max_height_nonneg h⟩

theorem diagramGeom_ok {g : Geo} (h : GOk g) : GOk (diagramGeom g) := by
  have := GOk_h_nonneg h
  exact ⟨le_refl 0, by simp [diagramGeom]; omega⟩

mutual

theorem geom_wf : (t : NodeTree) → wfDebug t = true → GOk (geom t)
  | .end_, _ => by refine ⟨?_, ?_⟩ <;> norm_num [geom]
  | .simpleStart, _ => by refine ⟨?_, ?_⟩ <;> norm_num [geom]
  | .simpleEnd, _ => by refine ⟨?_, ?_⟩ <;> norm_num [geom]
  | .start, _ => by refine ⟨?_, ?_⟩ <;> norm_num [geom]
  | .terminal tw, _ => by refine ⟨?_, ?_⟩ <;> norm_num [geom]
  | .nonTerminal tw, _ => by refine ⟨?_, ?_⟩ <;> norm_num [geom]
  | .comment tw, _ => by refine ⟨?_, ?_⟩ <;> norm_num [geom]
  | .empty, _ => ⟨le_refl 0, le_refl 0⟩
  | .debug e h w, hw => by
      simp only [wfDebug, Bool.and_eq_true, decide_eq_true_eq] at hw
      exact ⟨hw.1, le_of_lt hw.2⟩
  | .link i, hw => by
      have := geom_wf i (by simpa [wfDebug] using hw)
      simpa [geom] using this
  | .optional i, hw => by
      have := optionalGeom_ok (geom_wf i (by simpa [wfDebug] using hw))
      simpa [geom] using this
  | .sequence cs, hw => by
      have := seqGeom_ok (geomList_wf cs (by simpa [wfDebug] using hw))
      simpa [geom] using this
  | .choice cs, hw => by
      have := choiceGeom_ok (geomList_wf cs (by simpa [wfDebug] using hw))
      simpa [geom] using this
  | .stack cs, hw => by
      have := stackGeom_ok (geomList_wf cs (by simpa [wfDebug] using hw))
      simpa [geom] using this
  | .repeatNode i r, hw => by
      simp only [wfDebug, Bool.and_eq_true] at hw
      have := repeatGeom_ok (geom_wf i hw.1) (geom_wf r hw.2)
      simpa [geom] using this
  | .labeledBox i l, hw => by
      simp only [wfDebug, Bool.and_eq_true] at hw
      have := labeledBoxGeom_ok (geom_wf i hw.1) (geom_wf l hw.2)
      simpa [geom] using this
  | .vGrid cs, hw => by
      have := vGridGeom_ok (geomList_wf cs (by simpa [wfDebug] using hw))
      simpa [geom] using this
  | .hGrid cs, hw => by
      have := hGridGeom_ok (geomList_wf cs (by simpa [wfDebug] using hw))
      simpa [geom] using this
  | .diagram r, hw => by
      have := diagramGeom_ok (geom_wf r (by simpa [wfDebug] using hw))
      simpa [geom] using this

theorem geomList_wf : (cs : List NodeTree) → wfDebugList cs = true →
    ∀ g ∈ geomList cs, GOk g
  | [], _ => by simp [geomList]
  | c :: cs, hw => by
      simp only [wfDebugList, Bool.and_eq_true] at hw
      intro g hg
      simp only [geomList, List.mem_cons] at hg
      rcases hg with rfl | hg
      · exact geom_wf c hw.1
      · exact geomList_wf cs hw.2 g hg

end

theorem map_eh_geom (cs : List NodeTree) :
    (cs.map geom).map Geo.eh = cs.map entry_height := by
  rw [List.map_map]; rfl

theorem map_h_geom (cs : List NodeTree) :
    (cs.map geom).map Geo.h = cs.map height := by
  rw [List.map_map]; rfl

theorem map_w_geom (cs : List NodeTree) :
    (cs.map geom).map Geo.w = cs.map width := by
  rw [List.map_map]; rfl

theorem map_hbe_geom (cs : List NodeTree) :
    (cs.map geom).map Geo.hbe = cs.map height_below_entry := by
  rw [List.map_map]; rfl

/-- **C1** (as stated, refuted): the claimed invariant
`0 ≤ entry_height ≤ height` fails on a successfully constructed tree.
`Debug::new(-5, 3, 10)` passes its assertion `entry_height < height`, yet
the resulting node reports the negative entry height `-5`. -/
theorem C1_counterexample :
    constructedOk (.debug (-5) 3 10) = true ∧
    ¬ (0 ≤ entry_height (.debug (-5) 3 10) ∧
       entry_height (.debug (-5) 3 10) ≤ height (.debug (-5) 3 10)) := by
  decide

/-- **C1** (amended): for every node type and any composition whose `Debug`
leaves were successfully constructed with a non-negative supplied entry
height, `0 ≤ entry_height ≤ height` holds (equivalently,
`height_below_entry` is non-negative together with `0 ≤ entry_height`). -/
theorem C1_entry_height_invariant (t : NodeTree) (hw : wfDebug t = true) :
    0 ≤ entry_height t ∧ entry_height t ≤ height t :=
  geom_wf t hw

theorem C1_witness :
    wfDebug (.sequence [.start, .debug 20 30 10, .optional .end_]) = true ∧
    (0 ≤ entry_height (.sequence [.start, .debug 20 30 10, .optional .end_]) ∧
     entry_height (.sequence [.start, .debug 20 30 10, .optional .end_]) ≤
       height (.sequence [.start, .debug 20 30 10, .optional .end_])) :=
  ⟨by decide, C1_entry_height_invariant _ (by decide)⟩

/-- **C2**: for every `Sequence`, `entry_height` is the maximum child entry
height, `height` is that maximum plus the maximum child
`height_below_entry`, and `width` is the sum of the child widths plus
`spacing * (n-1)` (spacing 10) when `n > 1`, else the plain sum; and the
concrete two-`Debug` example reports width 90, height 50, entry height
30. -/
theorem C2_sequence_geometry :
    (∀ cs : List NodeTree,
        entry_height (.sequence cs) = maxD (cs.map entry_height) ∧
        height (.sequence cs) =
          maxD (cs.map entry_height) + maxD (cs.map height_below_entry) ∧
        width (.sequence cs) =
          (if cs.length > 1
           then (cs.map width).sum + ((cs.length : Int) - 1) * 10
           else (cs.map width).sum)) ∧
    entry_height (.sequence [.debug 20 30 10, .debug 30 50 70]) = 30 ∧
    height (.sequence [.debug 20 30 10, .debug 30 50 70]) = 50 ∧
    width (.sequence [.debug 20 30 10, .debug 30 50 70]) = 90 := by
  refine ⟨fun cs => ⟨?_, ?_, ?_⟩, by decide, by decide, by decide⟩
  · show (seqGeom (geomList cs)).eh = _
    rw [geomList_eq_map]
    show maxD ((cs.map geom).map Geo.eh) = _
    rw [map_eh_geom]
  · show (seqGeom (geomList cs)).h = _
    rw [geomList_eq_map]
    show maxD ((cs.map geom).map Geo.eh) + maxD ((cs.map geom).map Geo.hbe) = _
    rw [map_eh_geom, map_hbe_geom]
  · show (seqGeom (geomList cs)).w = _
    rw [geomList_eq_map]
    simp only [seqGeom, total_width, List.length_map, map_w_geom]

/-- **C3**: for every `Choice` with at least two children, `entry_height`
is the first child's entry height; `height` is the first child's entry
height plus `max(R, spacing + first.height_below_entry)` plus the sum of
`padded_height` over the remaining children minus the spacing (R = 12,
spacing = 10); `width` is `2*(2R)` plus the maximum child width. -/
theorem C3_choice_geometry (c0 c1 : NodeTree) (rest : List NodeTree) :
    entry_height (.choice (c0 :: c1 :: rest)) = entry_height c0 ∧
    height (.choice (c0 :: c1 :: rest)) =
      entry_height c0 + max ARC_RADIUS (10 + height_below_entry c0) +
        (((c1 :: rest).map
            (fun c => max ARC_RADIUS (entry_height c)
              + height_below_entry c + 10)).sum) - 10 ∧
    width (.choice (c0 :: c1 :: rest)) =
      2 * (2 * ARC_RADIUS) + maxD ((c0 :: c1 :: rest).map width) := by
  have hg : geom (.choice (c0 :: c1 :: rest)) =
      choiceGeom (geom c0 :: geom c1 :: rest.map geom) := by
    show choiceGeom (geomList _) = _
    rw [geomList_eq_map]; rfl
  have hpad : (geom c1 :: rest.map geom).map choicePaddedHeight =
      (c1 :: rest).map
        (fun c => max ARC_RADIUS (entry_height c) + height_below_entry c + 10) := by
    show ((c1 :: rest).map geom).map choicePaddedHeight = _
    rw [List.map_map]; rfl
  have hw : max_width (geom c0 :: geom c1 :: rest.map geom) =
      maxD ((c0 :: c1 :: rest).map width) := by
    show max_width ((c0 :: c1 :: rest).map geom) = _
    rw [max_width, map_w_geom]
  refine ⟨?_, ?_, ?_⟩
  · show (geom (.choice (c0 :: c1 :: rest))).eh = _
    rw [hg, choiceGeom_cons_cons]
    rfl
  · show (geom (.choice (c0 :: c1 :: rest))).h = _
    rw [hg, choiceGeom_cons_cons]
    show _ + _ + ((geom c1 :: rest.map geom).map choicePaddedHeight).sum - 10 = _
    rw [hpad]
    rfl
  · show (geom (.choice (c0 :: c1 :: rest))).w = _
    rw [hg, choiceGeom_cons_cons]
    show ARC_RADIUS * 2 + max_width _ + ARC_RADIUS * 2 = _
    rw [hw, ARC_RADIUS]
    omega

/-- **C4**: for every `Repeat` with children `inner` and `repeat`,
`entry_height = inner.entry_height`, `height = inner.entry_height +
max(2R, inner.height_below_entry + spacing + repeat.entry_height) +
repeat.height_below_entry` and `width = 2R + max(repeat.width,
inner.width)` (R = 12, spacing = 10). -/
theorem C4_repeat_geometry (i r : NodeTree) :
    entry_height (.repeatNode i r) = entry_height i ∧
    height (.repeatNode i r) =
      entry_height i
        + max (2 * ARC_RADIUS) (height_below_entry i + 10 + entry_height r)
        + height_below_entry r ∧
    width (.repeatNode i r) = 2 * ARC_RADIUS + max (width r) (width i) := by
  refine ⟨rfl, ?_, ?_⟩
  · show (repeatGeom (geom i) (geom r)).h = _
    simp only [repeatGeom, repeatHeightBetweenEntries, ARC_RADIUS]
    norm_num
    rfl
  · show ARC_RADIUS + max (width r) (width i) + ARC_RADIUS = _
    simp only [ARC_RADIUS]
    generalize max (width r) (width i) = m
    omega

/-- **C5**: `Choice` and `Stack` with zero children report all-zero
geometry; with exactly one child they report exactly that child's
geometry. -/
theorem C5_degenerate_choice_stack :
    (entry_height (.choice ([] : List NodeTree)) = 0 ∧
     height (.choice ([] : List NodeTree)) = 0 ∧
     width (.choice ([] : List NodeTree)) = 0) ∧
    (entry_height (.stack ([] : List NodeTree)) = 0 ∧
     height (.stack ([] : List NodeTree)) = 0 ∧
     width (.stack ([] : List NodeTree)) = 0) ∧
    (∀ c : NodeTree,
      entry_height (.choice [c]) = entry_height c ∧
      height (.choice [c]) = height c ∧
      width (.choice [c]) = width c ∧
      entry_height (.stack [c]) = entry_height c ∧
      height (.stack [c]) = height c ∧
      width (.stack [c]) = width c) := by
  refine ⟨by decide, by decide, fun c => ?_⟩
  have hc : geom (.choice [c]) = choiceGeom [geom c] := rfl
  have hs : geom (.stack [c]) = stackGeom [geom c] := rfl
  refine ⟨?_, ?_, ?_, ?_, ?_, ?_⟩ <;>
    simp [entry_height, height, width, hc, hs, choiceGeom_single,
      stackGeom_single]

/-- **C6**: `Debug::new` fails exactly when the supplied entry height is
not strictly less than the supplied height; on success, the node reports
exactly the supplied `entry_height`, `height` and `width`. -/
theorem C6_debug_construction (e h w : Int) :
    ((Debug.new e h w).isSome ↔ e < h) ∧
    ∀ t, Debug.new e h w = some t →
      entry_height t = e ∧ height t = h ∧ width t = w := by
  constructor
  · constructor
    · intro hs
      by_contra hlt
      simp [Debug.new, hlt] at hs
    · intro hlt
      simp [Debug.new, hlt]
  · intro t ht
    simp only [Debug.new] at ht
    split at ht
    · cases ht
      exact ⟨rfl, rfl, rfl⟩
    · cases ht

theorem C6_witness :
    (Debug.new 1 2 3).isSome ∧
    (entry_height (.debug 1 2 3) = 1 ∧ height (.debug 1 2 3) = 2 ∧
     width (.debug 1 2 3) = 3) :=
  ⟨(C6_debug_construction 1 2 3).1.mpr (by norm_num),
   (C6_debug_construction 1 2 3).2 (.debug 1 2 3) rfl⟩

/-- **C10**: `VerticalGrid` and `HorizontalGrid` always report entry
height `0`, whatever their children are. -/
theorem C10_grid_entry_height_zero (cs ds : List NodeTree) :
    entry_height (.vGrid cs) = 0 ∧ entry_height (.hGrid ds) = 0 :=
  ⟨rfl, rfl⟩

/-- `HDir` (notactuallysvg.rs): the direction flag selecting which way the
arrows on long straight runs point. -/
inductive HDir where
  | LTR : HDir
  | RTL : HDir
deriving Repr, DecidableEq

/-- `HDir::invert` (notactuallysvg.rs). -/
def HDir.invert : HDir → HDir
  | .LTR => .RTL
  | .RTL => .LTR

/-- `Arc` (notactuallysvg.rs): the 8 quarter-circle corner directions. -/
inductive ArcDir where
  | EastToNorth : ArcDir
  | EastToSouth : ArcDir
  | NorthToEast : ArcDir
  | NorthToWest : ArcDir
  | SouthToEast : ArcDir
  | SouthToWest : ArcDir
  | WestToNorth : ArcDir
  | WestToSouth : ArcDir
deriving Repr, DecidableEq

/-- One fragment appended to `PathData::text` (notactuallysvg.rs).  The
source accumulates a `String`; each constructor below corresponds to exactly
one `write!` of the builder methods, and `renderCmd` reproduces the exact
text it writes, so a `PathData` text is the concatenation of the rendered
fragments in order. -/
inductive PathCmd where
  | moveTo (x y : Int) : PathCmd
  | moveRel (x y : Int) : PathCmd
  | lineRel (x y : Int) : PathCmd
  | horiz (d : Int) : PathCmd
  | vert (d : Int) : PathCmd
  | arcTo (radius sweep x y : Int) : PathCmd
deriving Repr, DecidableEq

/-- The exact text each builder method of `PathData` writes
(notactuallysvg.rs: `move_to`, `move_rel`, `line_rel`, `horizontal`,
`vertical`, `arc`). -/
def renderCmd : PathCmd → String
  | .moveTo x y => " M " ++ toString x ++ " " ++ toString y
  | .moveRel x y => " m " ++ toString x ++ " " ++ toString y
  | .lineRel x y => " l " ++ toString x ++ " " ++ toString y
  | .horiz d => " h " ++ toString d
  | .vert d => " v " ++ toString d
  | .arcTo r sweep x y =>
      " a " ++ toString r ++ " " ++ toString r ++ " 0 0 " ++ toString sweep
        ++ " " ++ toString x ++ " " ++ toString y

/-- `PathData` (notactuallysvg.rs): the accumulated path text (as the list
of written fragments) and the direction flag. -/
structure PathData where
  cmds : List PathCmd
  h_dir : HDir
deriving Repr, DecidableEq

/-- The accumulated `text`-field of a `PathData`. -/
def PathData.text (pd : PathData) : String :=
  String.join (pd.cmds.map renderCmd)

/-- `PathData::new` (notactuallysvg.rs). -/
def PathData.new (h_dir : HDir) : PathData := ⟨[], h_dir⟩

/-- `PathData::move_to` (notactuallysvg.rs). -/
def PathData.move_to (pd : PathData) (x y : Int) : PathData :=
  ⟨pd.cmds ++ [.moveTo x y], pd.h_dir⟩

/-- `PathData::move_rel` (notactuallysvg.rs). -/
def PathData.move_rel (pd : PathData) (x y : Int) : PathData :=
  ⟨pd.cmds ++ [.moveRel x y], pd.h_dir⟩

/-- `PathData::line_rel` (notactuallysvg.rs). -/
def PathData.line_rel (pd : PathData) (x y : Int) : PathData :=
  ⟨pd.cmds ++ [.lineRel x y], pd.h_dir⟩

/-- `PathData::arc` (notactuallysvg.rs): sweep-flag and endpoint per
direction. -/
def PathData.arc (pd : PathData) (radius : Int) (kind : ArcDir) : PathData :=
  let swxy : Int × Int × Int :=
    match kind with
    | .EastToNorth => (1, -radius, -radius)
    | .EastToSouth => (0, -radius, radius)
    | .NorthToEast => (0, radius, radius)
    | .NorthToWest => (1, -radius, radius)
    | .SouthToEast => (1, radius, -radius)
    | .SouthToWest => (0, -radius, -radius)
    | .WestToNorth => (0, radius, -radius)
    | .WestToSouth => (1, radius, radius)
  ⟨pd.cmds ++ [.arcTo radius swxy.1 swxy.2.1 swxy.2.2], pd.h_dir⟩

/-- `PathData::horizontal` (notactuallysvg.rs): write `h {h}`, then
for runs longer than 50 (or shorter than -50) interleave a chevron of two
relative lines, mirrored per run direction and per direction flag.
Rust's `i64` division truncates toward zero, hence `Int.tdiv`. -/
def PathData.horizontal (pd : PathData) (h : Int) : PathData :=
  let pd : PathData := ⟨pd.cmds ++ [.horiz h], pd.h_dir⟩
  if 50 < h then
    match pd.h_dir with
    | .LTR =>
        ((((pd.move_rel (-(Int.tdiv h 2 - 3)) 0).line_rel (-5) (-5)).move_rel
            0 10).line_rel 5 (-5)).move_rel (Int.tdiv h 2 - 3) 0
    | .RTL =>
        ((((pd.move_rel (-(Int.tdiv h 2 + 3)) 0).line_rel 5 (-5)).move_rel
            0 10).line_rel (-5) (-5)).move_rel (Int.tdiv h 2 + 3) 0
  else if h < -50 then
    match pd.h_dir with
    | .LTR =>
        ((((pd.move_rel (-(Int.tdiv h 2 - 3)) 0).line_rel 5 (-5)).move_rel
            0 10).line_rel (-5) (-5)).move_rel (Int.tdiv h 2 - 3) 0
    | .RTL =>
        ((((pd.move_rel (-(Int.tdiv h 2 + 3)) 0).line_rel (-5) (-5)).move_rel
            0 10).line_rel 5 (-5)).move_rel (Int.tdiv h 2 + 3) 0
  else pd

/-- `PathData::vertical` (notactuallysvg.rs): write `v {h}`, then
interleave a chevron for long runs; the direction flag is not consulted. -/
def PathData.vertical (pd : PathData) (h : Int) : PathData :=
  let pd : PathData := ⟨pd.cmds ++ [.vert h], pd.h_dir⟩
  if 50 < h then
    ((((pd.move_rel 0 (-(Int.tdiv h 2 - 3))).line_rel (-5) (-5)).move_rel
        10 0).line_rel (-5) 5).move_rel 0 (Int.tdiv h 2 - 3)
  else if h < -50 then
    ((((pd.move_rel 0 (-(Int.tdiv h 2 - 3))).line_rel (-5) 5).move_rel
        10 0).line_rel (-5) (-5)).move_rel 0 (Int.tdiv h 2 - 3)
  else pd

/-- The relative-line fragments of a path: chevrons are the only source of
`l`-commands emitted by `horizontal` and `vertical`. -/
def lineRelArgs : PathCmd → Option (Int × Int)
  | .lineRel x y => some (x, y)
  | _ => none

/-- All chevron line strokes contained in a path, in order. -/
def chevronLines (pd : PathData) : List (Int × Int) :=
  pd.cmds.filterMap lineRelArgs

/-- **C7**: a horizontal run of exactly 51 units emits a chevron centered
on the run while a run of exactly 50 units emits none; in general a
horizontal or vertical run interleaves a chevron (a pair of relative line
strokes) exactly when the run length is `> 50` or `< -50`, the strokes
being mirrored between the two run directions and, for horizontal runs,
between the two direction flags. -/
theorem C7_arrow_threshold :
    ((PathData.new .LTR).horizontal 51).text =
      " h 51 m -22 0 l -5 -5 m 0 10 l 5 -5 m 22 0" ∧
    ((PathData.new .LTR).horizontal 50).text = " h 50" ∧
    (∀ (s : List PathCmd) (dir : HDir) (h : Int),
      chevronLines (PathData.horizontal ⟨s, dir⟩ h) =
        chevronLines ⟨s, dir⟩ ++
          (if 50 < h then
            (match dir with
             | .LTR => [(-5, -5), (5, -5)]
             | .RTL => [(5, -5), (-5, -5)])
           else if h < -50 then
            (match dir with
             | .LTR => [(5, -5), (-5, -5)]
             | .RTL => [(-5, -5), (5, -5)])
           else [])) ∧
    (∀ (s : List PathCmd) (dir : HDir) (h : Int),
      chevronLines (PathData.vertical ⟨s, dir⟩ h) =
        chevronLines ⟨s, dir⟩ ++
          (if 50 < h then [(-5, -5), (-5, 5)]
           else if h < -50 then [(-5, 5), (-5, -5)]
           else [])) := by
  refine ⟨by decide, by decide, ?_, ?_⟩
  · intro s dir h
    rcases dir with _ | _ <;>
      by_cases h1 : 50 < h <;>
      by_cases h2 : h < -50 <;>
      simp [PathData.horizontal, PathData.move_rel, PathData.line_rel,
        chevronLines, lineRelArgs, h1, h2, List.filterMap_append]
  · intro s dir h
    by_cases h1 : 50 < h <;>
      by_cases h2 : h < -50 <;>
      simp [PathData.vertical, PathData.move_rel, PathData.line_rel,
        chevronLines, lineRelArgs, h1, h2, List.filterMap_append]

/-- The entity for one character, as matched by `encode_minimal`
(notactuallysvg.rs): the double quote (codepoint 34), `&`, `<`, `>` and the
apostrophe (codepoint 39); every other character has none. -/
def entityFor (c : Char) : Option String :=
  if c = Char.ofNat 34 then some "&quot;"
  else if c = '&' then some "&amp;"
  else if c = '<' then some "&lt;"
  else if c = '>' then some "&gt;"
  else if c = Char.ofNat 39 then some "&#x27;"
  else none

/-- The character-by-character body of `encode_minimal`: characters with an
entity are replaced by the entity's characters, all others are kept.  The
source walks `char_indices` and splices the untouched slices between
entities into the output buffer (returning the borrowed input when no
entity occurred); the output string is exactly this concatenation. -/
def encodeChars : List Char → List Char
  | [] => []
  | c :: cs =>
      (match entityFor c with
       | some e => e.data
       | none => [c]) ++ encodeChars cs

/-- `encode_minimal` (notactuallysvg.rs). -/
def encode_minimal (s : String) : String := String.mk (encodeChars s.data)

/-- `Element` (notactuallysvg.rs): tag name, attribute map (the `HashMap`
is modelled as a key-unique association list; serialization sorts by key),
optional inner text, children and siblings. -/
inductive Element where
  | mk (name : String) (attributes : List (String × String))
      (innerText : Option String) (children : List Element)
      (siblings : List Element) : Element

/-- The tag name of an element. -/
def Element.name : Element → String
  | .mk n _ _ _ _ => n

/-- The attribute map of an element. -/
def Element.attributes : Element → List (String × String)
  | .mk _ a _ _ _ => a

/-- The inner text of an element (the source's `text`-field). -/
def Element.innerText : Element → Option String
  | .mk _ _ t _ _ => t

/-- `Element::new` (notactuallysvg.rs). -/
def Element.new (name : String) : Element := .mk name [] none [] []

/-- `HashMap::insert` on the association list modelling the attribute map:
replaces any binding of the key. -/
def setAttr (attrs : List (String × String)) (k v : String) :
    List (String × String) :=
  (attrs.filter (fun p => p.1 != k)) ++ [(k, v)]

/-- `Element::set` (notactuallysvg.rs). -/
def Element.set : Element → String → String → Element
  | .mk n a t c s, k, v => .mk n (setAttr a k v) t c s

/-- `Element::text` (notactuallysvg.rs): stores the HTML-escaped text. -/
def Element.text : Element → String → Element
  | .mk n a _ c s, txt => .mk n a (some (encode_minimal txt)) c s

/-- `Element::raw_text` (notactuallysvg.rs): stores the text unescaped. -/
def Element.raw_text : Element → String → Element
  | .mk n a _ c s, txt => .mk n a (some txt) c s

/-- `Element::add`/`Element::push` (notactuallysvg.rs). -/
def Element.add : Element → Element → Element
  | .mk n a t c s, e => .mk n a t (c ++ [e]) s

/-- `Element::append` (notactuallysvg.rs): appends a sibling. -/
def Element.append : Element → Element → Element
  | .mk n a t c s, e => .mk n a t c (s ++ [e])

/-- `PathData::into_path` (notactuallysvg.rs). -/
def PathData.into_path (pd : PathData) : Element :=
  (Element.new "path").set "d" pd.text

/-- Lexicographic comparison of character lists by codepoint.  Rust's `Ord`
for `String` compares the UTF-8 bytes lexicographically, which coincides
with codepoint-lexicographic comparison of the characters. -/
def charListLe : List Char → List Char → Bool
  | [], _ => true
  | _ :: _, [] => false
  | c :: cs, d :: ds =>
      if c.toNat < d.toNat then true
      else if d.toNat < c.toNat then false
      else charListLe cs ds

/-- Rust's `Ord`-comparison of two `String` keys. -/
def keyLe (a b : String) : Bool := charListLe a.data b.data

/-- `attrs.sort_by_key(|(k, _)| *k)` of the `Display`-impl
(notactuallysvg.rs), modelled as an insertion sort by key.  Both it and
Rust's sort are stable, and the attribute maps fed to it have pairwise
distinct keys, on which every sort by key agrees. -/
def sortByKey (l : List (String × String)) : List (String × String) :=
  l.insertionSort (fun a b => keyLe a.1 b.1 = true)

/-- The ` key="value"` attribute fragments of the `Display`-impl
(notactuallysvg.rs), in list order. -/
def renderAttrs : List (String × String) → String
  | [] => ""
  | (k, v) :: rest => " " ++ k ++ "=\"" ++ v ++ "\"" ++ renderAttrs rest

mutual

/-- The `Display`-impl of `Element` (notactuallysvg.rs): open tag,
attributes sorted by key, `/>` self-close when there is neither text nor a
child, else the text, the children, the closing tag, and finally the
siblings. -/
def render : Element → String
  | .mk name attrs txt children siblings =>
      "<" ++ name ++ renderAttrs (sortByKey attrs)
        ++ (if txt.isNone && children.isEmpty then "/>\n" else ">\n")
        ++ txt.getD ""
        ++ renderList children
        ++ (if txt.isSome || !children.isEmpty then "</" ++ name ++ ">\n"
            else "")
        ++ renderList siblings

/-- Concatenated rendering of a list of elements. -/
def renderList : List Element → String
  | [] => ""
  | e :: es => render e ++ renderList es

end

theorem encodeChars_append (a b : List Char) :
    encodeChars (a ++ b) = encodeChars a ++ encodeChars b := by
  induction a with
  | nil => rfl
  | cons c cs ih => simp [encodeChars, ih]

/-- **C8**: `encode_minimal` is a per-character escaper: it distributes
over concatenation, leaves every character other than the double quote,
`&`, `<`, `>` and the apostrophe unchanged, replaces exactly those five by
their entities, escapes `Foo<bar>` to `Foo&lt;bar&gt;`, and is the escaper
applied by `Element::text` to text set on a markup element. -/
theorem C8_minimal_escaping :
    (∀ s t : String,
      encode_minimal (s ++ t) = encode_minimal s ++ encode_minimal t) ∧
    (∀ c : Char, c ≠ Char.ofNat 34 → c ≠ '&' → c ≠ '<' → c ≠ '>' →
      c ≠ Char.ofNat 39 →
      encode_minimal (String.singleton c) = String.singleton c) ∧
    encode_minimal (String.singleton (Char.ofNat 34)) = "&quot;" ∧
    encode_minimal "&" = "&amp;" ∧
    encode_minimal "<" = "&lt;" ∧
    encode_minimal ">" = "&gt;" ∧
    encode_minimal (String.singleton (Char.ofNat 39)) = "&#x27;" ∧
    encode_minimal "Foo<bar>" = "Foo&lt;bar&gt;" ∧
    (∀ (e : Element) (txt : String),
      (e.text txt).innerText = some (encode_minimal txt)) := by
  refine ⟨?_, ?_, by decide, by decide, by decide, by decide, by decide,
    by decide, ?_⟩
  · intro s t
    exact congrArg String.mk (encodeChars_append s.data t.data)
  · intro c h1 h2 h3 h4 h5
    have he : entityFor c = none := by simp [entityFor, h1, h2, h3, h4, h5]
    show String.mk (encodeChars [c]) = _
    simp only [encodeChars, he, List.append_nil]
    rfl
  · intro e txt
    cases e
    rfl

theorem C8_witness :
    encode_minimal (String.singleton 'x') = String.singleton 'x' :=
  C8_minimal_escaping.2.1 'x' (by decide) (by decide) (by decide)
    (by decide) (by decide)

theorem charListLe_total : ∀ a b : List Char,
    charListLe a b = true ∨ charListLe b a = true
  | [], _ => Or.inl rfl
  | _ :: _, [] => Or.inr rfl
  | c :: cs, d :: ds => by
      simp only [charListLe]
      rcases Nat.lt_trichotomy c.toNat d.toNat with h | h | h
      · left; simp [h]
      · have h1 : ¬ c.toNat < d.toNat := by omega
        have h2 : ¬ d.toNat < c.toNat := by omega
        rcases charListLe_total cs ds with ih | ih
        · left; simp [h1, h2, ih]
        · right; simp [h1, h2, ih]
      · right; simp [h]

theorem charListLe_trans : ∀ a b c : List Char,
    charListLe a b = true → charListLe b c = true → charListLe a c = true
  | [], _, _, _, _ => rfl
  | _ :: _, [], _, hab, _ => by simp [charListLe] at hab
  | _ :: _, _ :: _, [], _, hbc => by simp [charListLe] at hbc
  | x :: xs, y :: ys, z :: zs, hab, hbc => by
      simp only [charListLe] at hab hbc ⊢
      rcases Nat.lt_trichotomy x.toNat y.toNat with hxy | hxy | hxy
      · rcases Nat.lt_trichotomy y.toNat z.toNat with hyz | hyz | hyz
        · simp [show x.toNat < z.toNat by omega]
        · simp [show x.toNat < z.toNat by omega]
        · simp [show ¬ y.toNat < z.toNat by omega, hyz] at hbc
      · rcases Nat.lt_trichotomy y.toNat z.toNat with hyz | hyz | hyz
        · simp [show x.toNat < z.toNat by omega]
        · simp only [if_neg (show ¬ x.toNat < z.toNat by omega),
            if_neg (show ¬ z.toNat < x.toNat by omega)]
          simp only [if_neg (show ¬ x.toNat < y.toNat by omega),
            if_neg (show ¬ y.toNat < x.toNat by omega)] at hab
          simp only [if_neg (show ¬ y.toNat < z.toNat by omega),
            if_neg (show ¬ z.toNat < y.toNat by omega)] at hbc
          exact charListLe_trans xs ys zs hab hbc
        · simp [show ¬ y.toNat < z.toNat by omega, hyz] at hbc
      · simp [show ¬ x.toNat < y.toNat by omega, hxy] at hab

theorem charListLe_antisymm : ∀ a b : List Char,
    charListLe a b = true → charListLe b a = true → a = b
  | [], [], _, _ => rfl
  | [], _ :: _, _, hba => by simp [charListLe] at hba
  | _ :: _, [], hab, _ => by simp [charListLe] at hab
  | c :: cs, d :: ds, hab, hba => by
      rcases Nat.lt_trichotomy c.toNat d.toNat with h | h | h
      · simp [charListLe, show ¬ d.toNat < c.toNat by omega, h] at hba
      · have hc : c = d := Char.eq_of_val_eq (UInt32.toNat.inj h)
        subst hc
        simp only [charListLe,
          if_neg (show ¬ c.toNat < c.toNat by omega)] at hab hba
        rw [charListLe_antisymm cs ds hab hba]
      · simp [charListLe, show ¬ c.toNat < d.toNat by omega, h] at hab

theorem keyLe_antisymm {a b : String} (h1 : keyLe a b = true)
    (h2 : keyLe b a = true) : a = b :=
  String.ext (charListLe_antisymm _ _ h1 h2)

theorem sortByKey_sorted_strict {l : List (String × String)}
    (hnd : (l.map Prod.fst).Nodup) :
    (sortByKey l).Pairwise
      (fun a b => keyLe a.1 b.1 = true ∧ a.1 ≠ b.1) := by
  haveI : IsTotal (String × String) (fun a b => keyLe a.1 b.1 = true) :=
    ⟨fun a b => charListLe_total a.1.data b.1.data⟩
  haveI : IsTrans (String × String) (fun a b => keyLe a.1 b.1 = true) :=
    ⟨fun a b c => charListLe_trans a.1.data b.1.data c.1.data⟩
  have hs : (sortByKey l).Pairwise (fun a b => keyLe a.1 b.1 = true) :=
    List.sorted_insertionSort _ l
  have hnd' : ((sortByKey l).map Prod.fst).Nodup :=
    (((List.perm_insertionSort _ l).map Prod.fst).nodup_iff).2 hnd
  have hne : (sortByKey l).Pairwise (fun a b => a.1 ≠ b.1) :=
    List.pairwise_map.mp hnd'
  exact (hs.and hne).imp (fun h => h)

theorem sortByKey_eq_of_perm {l1 l2 : List (String × String)}
    (hnd : (l1.map Prod.fst).Nodup) (hp : l1.Perm l2) :
    sortByKey l1 = sortByKey l2 := by
  haveI : IsAntisymm (String × String)
      (fun a b => keyLe a.1 b.1 = true ∧ a.1 ≠ b.1) :=
    ⟨fun a b h1 h2 => absurd (keyLe_antisymm h1.1 h2.1) h1.2⟩
  have hnd2 : (l2.map Prod.fst).Nodup := ((hp.map Prod.fst).nodup_iff).1 hnd
  refine List.eq_of_perm_of_sorted
    ?_ (sortByKey_sorted_strict hnd) (sortByKey_sorted_strict hnd2)
  exact ((List.perm_insertionSort _ l1).trans hp).trans
    (List.perm_insertionSort _ l2).symm

mutual

/-- Two elements describe the same markup tree: equal names, texts and
child/sibling sequences, and attribute lists that are permutations of each
other — i.e. the same attribute `HashMap`, merely iterated in a different
(nondeterministic) order. -/
def SameTree : Element → Element → Prop
  | .mk n1 a1 t1 c1 s1, .mk n2 a2 t2 c2 s2 =>
      n1 = n2 ∧ a1.Perm a2 ∧ t1 = t2 ∧ SameTreeList c1 c2 ∧
        SameTreeList s1 s2

def SameTreeList : List Element → List Element → Prop
  | [], [] => True
  | e :: es, f :: fs => SameTree e f ∧ SameTreeList es fs
  | _, _ => False

end

mutual

/-- Every attribute list of the tree has pairwise distinct keys — the
invariant every element built through `Element::set`/`set_all` over a
`HashMap` enjoys. -/
def attrKeysNodup : Element → Prop
  | .mk _ a _ c s =>
      (a.map Prod.fst).Nodup ∧ attrKeysNodupList c ∧ attrKeysNodupList s

def attrKeysNodupList : List Element → Prop
  | [] => True
  | e :: es => attrKeysNodup e ∧ attrKeysNodupList es

end

theorem sameTreeList_isEmpty {l1 l2 : List Element}
    (h : SameTreeList l1 l2) : l1.isEmpty = l2.isEmpty := by
  cases l1 <;> cases l2
  · rfl
  · exact False.elim h
  · exact False.elim h
  · rfl

mutual

theorem render_congr : (e1 e2 : Element) → attrKeysNodup e1 →
    SameTree e1 e2 → render e1 = render e2
  | .mk n1 a1 t1 c1 s1, .mk n2 a2 t2 c2 s2, hwf, hst => by
      obtain ⟨hn, hperm, ht, hc, hs⟩ := hst
      obtain ⟨hnd, hwc, hws⟩ := hwf
      have h1 := renderList_congr c1 c2 hwc hc
      have h2 := renderList_congr s1 s2 hws hs
      have h3 : renderAttrs (sortByKey a1) = renderAttrs (sortByKey a2) := by
        rw [sortByKey_eq_of_perm hnd hperm]
      have h4 := sameTreeList_isEmpty hc
      simp only [render]
      rw [hn, ht, h3, h4, h1, h2]

theorem renderList_congr : (l1 l2 : List Element) → attrKeysNodupList l1 →
    SameTreeList l1 l2 → renderList l1 = renderList l2
  | [], [], _, _ => rfl
  | [], _ :: _, _, hst => False.elim hst
  | _ :: _, [], _, hst => False.elim hst
  | e :: es, f :: fs, hwf, hst => by
      obtain ⟨h1, h2⟩ := hst
      obtain ⟨h3, h4⟩ := hwf
      simp only [renderList]
      rw [render_congr e f h3 h1, renderList_congr es fs h4 h2]

end

/-- **C9**: serialization is deterministic.  The `Display`-impl sorts the
attributes by key before writing them, so two builds of the same element
tree — equal except for the iteration order of their attribute maps —
serialize to byte-identical output.  (The key-uniqueness hypothesis is the
invariant of the `HashMap` the attributes are stored in.) -/
theorem C9_render_deterministic (e1 e2 : Element)
    (hwf : attrKeysNodup e1) (hst : SameTree e1 e2) :
    render e1 = render e2 :=
  render_congr e1 e2 hwf hst

theorem C9_witness :
    attrKeysNodup (.mk "g" [("b", "2"), ("a", "1")] none [] []) ∧
    SameTree (.mk "g" [("b", "2"), ("a", "1")] none [] [])
      (.mk "g" [("a", "1"), ("b", "2")] none [] []) ∧
    render (.mk "g" [("b", "2"), ("a", "1")] none [] []) =
      render (.mk "g" [("a", "1"), ("b", "2")] none [] []) := by
  have h1 : attrKeysNodup (.mk "g" [("b", "2"), ("a", "1")] none [] []) :=
    ⟨by decide, trivial, trivial⟩
  have h2 : SameTree (.mk "g" [("b", "2"), ("a", "1")] none [] [])
      (.mk "g" [("a", "1"), ("b", "2")] none [] []) :=
    ⟨rfl, List.Perm.swap ("a", "1") ("b", "2") [], rfl, trivial, trivial⟩
  exact ⟨h1, h2, C9_render_deterministic _ _ h1 h2⟩

end Railroad
